import Mathlib

/-!
Shallow embedding of the core of the `rardecode` Go library (a read-only RAR
archive decoder) and verification of specification claims against it.

Pure Go functions become Lean functions; Go slices become `List Nat`
(byte values); Go `int`/`int64` arithmetic is `Int`/`Nat` with explicit
two's-complement wrapping where overflow can occur; fallible operations
(Go panics and error returns) become `Option`/`Except`.
-/

namespace Rardecode

/-- Error values used by the library (the `errors.New` values and the
`io` sentinel errors appearing in the Go source). -/
inductive GoErr where
  | eof               -- io.EOF
  | unexpectedEOF     -- io.ErrUnexpectedEOF
  | shortFile         -- errShortFile ("decoded file too short")
  | badFileChecksum   -- errBadFileChecksum ("bad file checksum")
  | solidOpen         -- errSolidOpen ("solid files don't support Open")
  | tooManyFilters    -- errTooManyFilters ("too many filters")
  | invalidFilter     -- errInvalidFilter ("invalid filter")
  | invalidArg        -- fs.ErrInvalid
  deriving DecidableEq, Repr

/-! ## readBuf.uvarint (src/archive.go) -/

/-- The loop body of `readBuf.uvarint`: `x` is the accumulator, `s` the shift.
`uint64` arithmetic wraps at `2^64`, and a Go shift by `s ≥ 64` yields 0,
which `% 2^64` reproduces. -/
def uvarintAux (x s : Nat) : List Nat → Nat × List Nat
  | [] => (0, [])
  | n :: rest =>
    if n < 0x80 then ((x ||| (n <<< s) % 2 ^ 64) % 2 ^ 64, rest)
    else uvarintAux ((x ||| ((n &&& 0x7f) <<< s) % 2 ^ 64) % 2 ^ 64) (s + 7) rest

/-- `readBuf.uvarint` from src/archive.go: decodes a base-128 varint from the
front of the buffer, advancing it.  If the buffer runs out before a
terminating byte (`< 0x80`), it consumes everything and returns 0
(the Go source comments: "if we run out of bytes, just return 0"). -/
def uvarint (b : List Nat) : Nat × List Nat := uvarintAux 0 0 b

/-! ## File.Open (src/reader.go) -/

/-- The fields of `File` relevant to `File.Open`. -/
structure GoFile where
  Solid : Bool
  offset : Int

/-- `File.Open` from src/reader.go.  The filesystem side effects
(`os.Open`, `Seek`, and the `nextFile` reader construction) are supplied
as oracle results; `H` stands for the opened volume file handle and `R`
for the constructed `ReadCloser`. -/
def fileOpen {H R : Type} (f : GoFile) (osOpen : Except GoErr H)
    (seekTo : H → Except GoErr Int) (next : H → Except GoErr R) :
    Except GoErr R :=
  if f.Solid then .error .solidOpen
  else
    match osOpen with
    | .error e => .error e
    | .ok h =>
      match seekTo h with
      | .error e => .error e
      | .ok _ =>
        match next h with
        | .error e => .error e
        | .ok r => .ok r

/-! ## limitedReader (src/reader.go) -/

/-- `limitedReader.Read` from src/reader.go.  `n` is the remaining byte
count (`l.n`, an `int64`), `shortErr` the configured error, `plen` the
length of the caller's buffer `p`, and `inner` gives the inner reader's
response (bytes read, error or `none`) to a `Read` with a buffer of the
given length.  Returns the `Read` result paired with the updated
remaining count. -/
def limitedRead (n : Int) (shortErr : GoErr) (plen : Nat)
    (inner : Nat → Nat × Option GoErr) : (Nat × Option GoErr) × Int :=
  if n ≤ 0 then ((0, some .eof), n)
  else
    let p := if (plen : Int) > n then n.toNat else plen
    let r := inner p
    let n' := n - (r.1 : Int)
    if r.2 = some .eof ∧ 0 < n' then ((r.1, some shortErr), n')
    else ((r.1, r.2), n')

/-! ## decodeReader.queueFilter (src/decode_reader.go) -/

def maxQueuedFilters : Nat := 8192

/-- A queued filter block; the `filter` function field of the Go struct
plays no role in queueing and is omitted. -/
structure FilterBlock where
  length : Nat
  offset : Nat
  deriving DecidableEq, Repr

/-- The loop of `queueFilter`: subtract each previously stored relative
offset from the new masked offset, failing if it would go negative. -/
def relOffset : Nat → List FilterBlock → Option Nat
  | off, [] => some off
  | off, fb :: rest =>
    if off < fb.offset then none else relOffset (off - fb.offset) rest

/-- `decodeReader.queueFilter` from src/decode_reader.go, with `mask` the
window's `win.mask`. -/
def queueFilter (mask : Nat) (filters : List FilterBlock) (f : FilterBlock) :
    Except GoErr (List FilterBlock) :=
  if filters.length ≥ maxQueuedFilters then .error .tooManyFilters
  else
    let off := f.offset &&& mask
    let len := f.length &&& mask
    match relOffset off filters with
    | none => .error .invalidFilter
    | some o => .ok (filters ++ [⟨len, o⟩])

/-- Sum of the stored (relative) offsets of a list of filters; the sum over
a prefix ending at a filter is that filter's absolute window offset. -/
def sumOffsets : List FilterBlock → Nat
  | [] => 0
  | fb :: rest => fb.offset + sumOffsets rest

/-- `queueFilter` as the specification describes it: reject at capacity
8192; reject when the masked offset lies before the absolute offset of any
previously queued filter; otherwise append with the offset converted to
the distance from the previous filter (masked offset minus the sum of all
stored offsets). -/
def queueFilterSpec (mask : Nat) (filters : List FilterBlock)
    (f : FilterBlock) : Except GoErr (List FilterBlock) :=
  if maxQueuedFilters ≤ filters.length then .error .tooManyFilters
  else if ∃ k < filters.length,
      f.offset &&& mask < sumOffsets (filters.take (k + 1)) then
    .error .invalidFilter
  else
    .ok (filters ++ [⟨f.length &&& mask, (f.offset &&& mask) - sumOffsets filters⟩])

/-! ## window (src/decode_reader.go) -/

def minWindowSize : Nat := 0x40000

/-- Two's-complement wrap of an integer to 64 bits (Go `int`). -/
def wrap64 (x : Int) : Int := (x + 2 ^ 63) % 2 ^ 64 - 2 ^ 63

/-- The `window` struct: sliding window buffer with read index `r`, write
index `w`, and a pending back-reference `(l, o)` left over when a
`copyBytes` ran out of space. -/
structure Window where
  buf : List Nat
  size : Nat
  mask : Nat
  r : Nat
  w : Nat
  l : Nat
  o : Nat
  deriving DecidableEq, Repr

/-- The zero value of the `window` struct. -/
def initialWindow : Window := ⟨[], 0, 0, 0, 0, 0, 0⟩

/-- Go's `copy(dst[start:], src)`: overwrite `dst` from index `start` with
`min (dst.length - start) src.length` bytes of `src`, returning the new
list and the count copied (`copy` snapshots the source, like memmove). -/
def goCopyInto (dst : List Nat) (start : Nat) (src : List Nat) :
    List Nat × Nat :=
  let n := min (dst.length - start) src.length
  (dst.take start ++ src.take n ++ dst.drop (start + n), n)

namespace Window

/-- `window.buffered`: bytes yet to be read from the window. -/
def buffered (win : Window) : Nat := win.w - win.r

/-- `window.available`: bytes writable before the window is full. -/
def available (win : Window) : Nat := win.size - win.w

/-- `window.reset`.  `size := 1 << log2size` is a 64-bit int shift, so it
wraps for `log2size ≥ 63`; a result below `minWindowSize` (including the
overflowed 0 or negative values) is clamped up to `minWindowSize`. -/
def reset (log2size : Nat) (clear : Bool) (win : Window) : Window :=
  let sizeI : Int := wrap64 (2 ^ log2size)
  let size : Nat :=
    if sizeI < (minWindowSize : Int) then minWindowSize else sizeI.toNat
  if win.buf.length < size then
    if clear then
      { win with buf := List.replicate size 0, size := size, mask := size - 1,
                 r := 0, w := 0 }
    else if 0 < win.buf.length then
      -- copy the existing buffered content (wrap-aware) into the new buffer
      let c1 := goCopyInto (List.replicate size 0) 0 (win.buf.drop win.w)
      let c2 := goCopyInto c1.1 c1.2 (win.buf.take win.w)
      let n := c1.2 + c2.2
      { win with buf := c2.1, size := size, mask := size - 1, r := n, w := n }
    else
      { win with buf := List.replicate size 0, size := size, mask := size - 1,
                 r := win.w, w := win.w }
  else if clear then
    { win with buf := List.replicate win.buf.length 0, r := 0, w := 0 }
  else
    { win with r := win.w }

/-- `window.writeByte`; `none` models the index-out-of-range panic. -/
def writeByte (c : Nat) (win : Window) : Option Window :=
  if win.w < win.buf.length then
    some { win with buf := win.buf.set win.w c, w := win.w + 1 }
  else none

/-- The final byte-by-byte loop of `window.copyBytes`
(`for w.l > 0 && w.w < w.size`), which deliberately copies forward one
byte at a time so an overlapping source repeats the pattern; called with
`fuel = win.l`, which bounds the iteration count. -/
def copyTail (i : Nat) (fuel : Nat) (win : Window) : Window :=
  match fuel with
  | 0 => win
  | fuel + 1 =>
    if 0 < win.l ∧ win.w < win.size then
      copyTail (i + 1) fuel
        { win with buf := win.buf.set win.w (win.buf.getD i 0),
                   w := win.w + 1, l := win.l - 1 }
    else win

/-- The shared tail of `window.copyBytes`: the block `copy` when the source
segment `[i, iend)` lies fully before the write index, else the byte loop. -/
def copyBytesTail (i iend : Nat) (win : Window) : Window :=
  if iend ≤ win.w then
    let c := goCopyInto win.buf win.w ((win.buf.drop i).take (iend - i))
    { win with buf := c.1, w := win.w + c.2, l := win.l - c.2 }
  else copyTail i win.l win

/-- `window.copyBytes`.  `i := (w.w - w.o) & w.mask` is the
two's-complement AND of a possibly negative int with the all-ones mask,
i.e. reduction modulo `mask + 1` (the window size, a power of two). -/
def copyBytes (length offset : Nat) (win0 : Window) : Window :=
  let win := { win0 with l := length &&& win0.mask, o := offset }
  let i : Nat := (((win.w : Int) - (win.o : Int)) % ((win.mask : Int) + 1)).toNat
  let iend := i + win.l
  if win.w < i then
    let iend1 := min iend win.size
    let c := goCopyInto win.buf win.w ((win.buf.drop i).take (iend1 - i))
    let win1 := { win with buf := c.1, w := win.w + c.2, l := win.l - c.2 }
    if win1.l = 0 then win1 else copyBytesTail 0 win1.l win1
  else copyBytesTail i iend win

/-- `window.bytes`: flush any pending back-reference if space is available,
return the slice `[r, w)`, wrap `w` to 0 when the window is full, and
advance `r` to `w`. -/
def bytes (win0 : Window) : List Nat × Window :=
  let win :=
    if 0 < win0.l ∧ win0.w < win0.size then copyBytes win0.l win0.o win0 else win0
  let b := (win.buf.drop win.r).take (win.w - win.r)
  let w' := if win.w = win.size then 0 else win.w
  (b, { win with r := w', w := w' })

end Window

/-- A quiescent-point step on the window: one `writeByte` or one
`copyBytes` call. -/
inductive WinOp where
  | write (c : Nat)
  | copy (length offset : Nat)

def applyOp (win : Window) : WinOp → Option Window
  | .write c => Window.writeByte c win
  | .copy len off => some (Window.copyBytes len off win)

def applyOps : Window → List WinOp → Option Window
  | win, [] => some win
  | win, op :: rest => (applyOp win op).bind fun win1 => applyOps win1 rest

/-- Window state invariant: holds after a clearing `reset` and is preserved
by `writeByte`/`copyBytes` (no intervening `bytes()` drain). -/
def WindowInv (win : Window) : Prop :=
  win.buf.length = win.size ∧ win.mask + 1 = win.size ∧ win.r = 0 ∧
    win.w ≤ win.size ∧ ∃ j, 18 ≤ j ∧ win.size = 2 ^ j

/-- The window state used in the claim C1 counterexample: clearing reset,
one `writeByte`, then a `bytes()` drain. -/
def c1CexWin : Window :=
  (Window.bytes ((Window.writeByte 1 (Window.reset 18 true initialWindow)).getD
    initialWindow)).2

/-- The window state reached in the claim C1 witness run: clearing reset
followed by `writeByte 5`. -/
def c1WitWin : Window :=
  ⟨(List.replicate 262144 0).set 0 5, 262144, 262143, 0, 1, 0, 0⟩

/-- Fields of the window preserved by `writeByte`/`copyBytes`: the indices
`r`, `size`, `mask` and the buffer length never change, and the write
index stays within `size`. -/
def Window.Preserves (a b : Window) : Prop :=
  b.size = a.size ∧ b.mask = a.mask ∧ b.r = a.r ∧
    b.buf.length = a.buf.length ∧ (a.w ≤ a.size → b.w ≤ a.size)

/-! ## nextOldVolName (src/volume.go) -/

/-- `file[i+1:]` where `i = strings.LastIndex(file, ".")`: the bytes after
the last `'.'` (byte 46), or the whole name when there is no dot
(`LastIndex` returns -1). -/
def extAfterLastDot (file : List Nat) : List Nat :=
  (file.reverse.takeWhile (fun c => c ≠ 46)).reverse

/-- `file[:i+1]`: everything up to and including the last dot (empty when
there is no dot). -/
def volPre (file : List Nat) : List Nat :=
  file.take (file.length - (extAfterLastDot file).length)

/-- The `for j := 2; j >= 0; j--` increment loop of `nextOldVolName`,
unrolled: increment the rightmost extension byte that is not `'9'`,
zeroing the bytes to its right, and turn a fully carried `'9'` in
position 0 into `'A'`.  `b[j]++` is a Go byte increment, so it wraps
modulo 256 (`0xFF` becomes `0x00`). -/
def incOldExt (b : List Nat) : List Nat :=
  if b.getD 2 0 ≠ 57 then b.set 2 ((b.getD 2 0 + 1) % 256)
  else if b.getD 1 0 ≠ 57 then (b.set 2 48).set 1 ((b.getD 1 0 + 1) % 256)
  else if b.getD 0 0 ≠ 57 then
    ((b.set 2 48).set 1 48).set 0 ((b.getD 0 0 + 1) % 256)
  else ((b.set 2 48).set 1 48).set 0 65

/-- `nextOldVolName` from src/volume.go, on byte lists.  `none` models the
Go panic on `file[:i+2]` when the extension is empty (`i+2` exceeds the
string length). -/
def nextOldVolName (file : List Nat) : Option (List Nat) :=
  let b := extAfterLastDot file
  let pre := volPre file
  if b.length < 3 ∨ b.getD 1 0 < 48 ∨ 57 < b.getD 1 0
      ∨ b.getD 2 0 < 48 ∨ 57 < b.getD 2 0 then
    match b with
    | [] => none
    | c :: _ => some (pre ++ [c, 48, 48])
  else some (pre ++ incOldExt b)

/-! ## checksumReader.eofError (src/reader.go) -/

/-- One iteration of the XOR-folding loop of `eofError`
(`for i, v := range sum[4:] { sum[i&3] ^= v }`): the byte at absolute
index `4 + i` is XORed into position `i &&& 3`. -/
def foldStep (s : List Nat) (i : Nat) : List Nat :=
  s.set (i &&& 3) ((s.getD (i &&& 3) 0) ^^^ (s.getD (4 + i) 0))

/-- The fold-and-truncate of `eofError`: run the loop over `sum[4:]` and
keep the first four bytes (`sum = sum[:4]`). -/
def foldSum (sum : List Nat) : List Nat :=
  ((List.range (sum.length - 4)).foldl foldStep sum).take 4

/-- The fold as the claim describes it (spec-side definition): position
`j < 4` holds the original byte `j` XORed with every byte at index
`i ≥ 4` with `i &&& 3 = j`; the result is the 4-byte truncation. -/
def foldSumSpec (s : List Nat) : List Nat :=
  (List.range 4).map (fun j =>
    ((List.range s.length).filter (fun i => 4 ≤ i ∧ i &&& 3 = j)).foldl
      (fun acc i => acc ^^^ s.getD i 0) (s.getD j 0))

/-- Running XOR of the bytes `s[4+i]` for `i < k` in residue class `j`,
seeded with `s[j]` — the value of position `j` after `k` loop steps. -/
def xorAcc (s : List Nat) (j k : Nat) : Nat :=
  ((List.range k).filter (fun i => i &&& 3 = j)).foldl
    (fun acc i => acc ^^^ s.getD (4 + i) 0) (s.getD j 0)

/-- `checksumReader.eofError`.  The incremental hash and the HMAC are
external crypto (crypto/sha256, crypto/hmac): `hashSum` stands for the
finalised `cr.hash.Sum(nil)` at EOF of the stream below, and `hmacSum`
for the 32-byte `HMAC_SHA256(hashKey, hashSum)` output
(`mac.Sum(sum[:0])`) computed when a key is present. -/
def eofError (hashSum hashKey expectedSum hmacSum : List Nat) : GoErr :=
  let sum := hashSum
  let sum :=
    if 0 < hashKey.length then
      let s := hmacSum
      if expectedSum.length = 4 then foldSum s else s
    else sum
  if sum = expectedSum then .eof else .badFileChecksum

/-- `eofError` as the claim describes it (spec-side definition): with a
non-empty HMAC key the sum is the HMAC recomputation, folded to 4 bytes
when the expected checksum is 4 bytes long; the "bad file checksum" error
is returned exactly when the sums differ, `io.EOF` on a match. -/
def eofErrorSpec (hashSum hashKey expectedSum hmacSum : List Nat) : GoErr :=
  let sum :=
    if hashKey ≠ [] then
      (if expectedSum.length = 4 then foldSumSpec hmacSum else hmacSum)
    else hashSum
  if sum = expectedSum then .eof else .badFileChecksum

/-! ## rarBitReader (src/unnamed/part_000) -/

/-- The `rarBitReader` state: `v` is the bit cache (a Go int whose low `n`
bits are the unread cached bits), `b` the pending byte input (the buffered
slice together with the underlying byteReader's remaining bytes). -/
structure RarBitReader where
  v : Nat
  n : Nat
  b : List Nat
  deriving DecidableEq, Repr

/-- The `for n > r.n` loop of `rarBitReader.readBits`: pull bytes into the
cache `v` until `k` bits are cached, then return the top `k` of them
(`(r.v >> r.n) & ((1 << n) - 1)` after `r.n -= n`).  `none` models an
`io.EOF` from `ReadByte` (input exhausted). -/
def readBitsGo (k : Nat) : Nat → Nat → List Nat → Option (Nat × RarBitReader)
  | v, n, [] =>
    if k ≤ n then some ((v >>> (n - k)) &&& ((1 <<< k) - 1), ⟨v, n - k, []⟩)
    else none
  | v, n, c :: rest =>
    if k ≤ n then some ((v >>> (n - k)) &&& ((1 <<< k) - 1), ⟨v, n - k, c :: rest⟩)
    else readBitsGo k ((v <<< 8) ||| c) (n + 8) rest

/-- `rarBitReader.readBits`. -/
def readBits (k : Nat) (r : RarBitReader) : Option (Nat × RarBitReader) :=
  readBitsGo k r.v r.n r.b

/-- `rarBitReader.readUint32`: reads a RAR V3 encoded uint32.
`n |= -1 << 8` on the 64-bit int followed by the `uint32` conversion is
two's-complement: `l ||| (2^64 - 2^8)` reduced mod `2^32`. -/
def readUint32 (r : RarBitReader) : Option (Nat × RarBitReader) :=
  match readBits 2 r with
  | none => none
  | some (n, r1) =>
    if n ≠ 1 then readBits (4 <<< n) r1
    else
      match readBits 4 r1 with
      | none => none
      | some (h, r2) =>
        if h = 0 then
          match readBits 8 r2 with
          | none => none
          | some (l, r3) => some ((l ||| (2 ^ 64 - 2 ^ 8)) % 2 ^ 32, r3)
        else
          match readBits 4 r2 with
          | none => none
          | some (low, r3) => some ((h <<< 4) ||| low, r3)

/-- The decoder the claim's table describes (spec-side definition, for
comparison with `readUint32`): leading bits 00 read 4 more bits, 10 read
8 more, 11 read 16 more; 01 reads 4 bits `h`, then 8 bits (value
`0xFFFFFF00 ||| l`) if `h = 0`, else 4 bits (value `(h <<< 4) ||| l`). -/
def readUint32Claim (r : RarBitReader) : Option (Nat × RarBitReader) :=
  match readBits 2 r with
  | none => none
  | some (c, r1) =>
    if c = 0 then readBits 4 r1
    else if c = 2 then readBits 8 r1
    else if c = 3 then readBits 16 r1
    else
      match readBits 4 r1 with
      | none => none
      | some (h, r2) =>
        if h = 0 then
          match readBits 8 r2 with
          | none => none
          | some (l, r3) => some (0xFFFFFF00 ||| l, r3)
        else
          match readBits 4 r2 with
          | none => none
          | some (l, r3) => some ((h <<< 4) ||| l, r3)

/-- Total number of unread bits held by the reader state. -/
def streamLen (r : RarBitReader) : Nat := r.n + 8 * r.b.length

/-- The value of a byte list read MSB-first as one big number. -/
def bytesVal : List Nat → Nat
  | [] => 0
  | c :: rest => c * 2 ^ (8 * rest.length) + bytesVal rest

/-- The value of the whole unread bit stream, MSB-first. -/
def streamVal (r : RarBitReader) : Nat :=
  (r.v % 2 ^ r.n) * 2 ^ (8 * r.b.length) + bytesVal r.b

/-! ## cipherBlockReader and cipherBlockFileReader.Seek (src/unnamed/part_002) -/

/-- State of a `cipherBlockFileReader` over a seekable archive file:
`data` is the whole ciphertext, `pos` the underlying reader's position,
`iv` the CBC chaining value held by the `cipher.BlockMode`, `initIV` the
IV the reader was created with, `inbuf`/`outbuf` the raw and decrypted
buffers, `off` the plaintext offset (`cr.off`, an `int64`). -/
structure CipherState where
  data : List Nat
  pos : Nat
  iv : List Nat
  initIV : List Nat
  inbuf : List Nat
  outbuf : List Nat
  off : Int

/-- Reading `n` bytes from the underlying file (`io.ReadFull`): `none`
models an EOF before `n` bytes arrive. -/
def readUnder (n : Nat) (s : CipherState) : Option (List Nat × CipherState) :=
  if s.pos + n ≤ s.data.length then
    some ((s.data.drop s.pos).take n, { s with pos := s.pos + n })
  else none

/-- `cipherBlockReader.fillOutbuf`: completes `block` from the input and
decrypts it in place with `mode.CryptBlocks`.  One CBC block step:
the plaintext is `D(block) XOR iv` and the chaining value becomes the
ciphertext block just consumed.  `D` is the raw AES block decryption. -/
def fillOutbuf (D : List Nat → List Nat) (s : CipherState) : Option CipherState :=
  match readUnder (16 - s.inbuf.length) s with
  | none => none
  | some (rb, s1) =>
    let block := s.inbuf ++ rb
    some { s1 with iv := block, outbuf := (D block).zipWith (· ^^^ ·) s.iv }

/-- `cipherBlockReader.ReadByte`: refill `outbuf` if it is empty, then
deliver its first byte and advance `off`. -/
def readByteC (D : List Nat → List Nat) (s : CipherState) :
    Option (Nat × CipherState) :=
  match s.outbuf with
  | b :: rest => some (b, { s with outbuf := rest, off := s.off + 1 })
  | [] =>
    match fillOutbuf D s with
    | none => none
    | some s1 =>
      match s1.outbuf with
      | b :: rest => some (b, { s1 with outbuf := rest, off := s1.off + 1 })
      | [] => none

/-- `n` consecutive `ReadByte` calls, collecting the bytes. -/
def readN (D : List Nat → List Nat) : Nat → CipherState → Option (List Nat × CipherState)
  | 0, s => some ([], s)
  | n + 1, s =>
    match readByteC D s with
    | none => none
    | some (b, s1) =>
      match readN D n s1 with
      | none => none
      | some (out, s2) => some (b :: out, s2)

/-- `cipherBlockReader.reset`: install a fresh CBC decrypter with the
given IV and drop both buffers. -/
def resetC (iv : List Nat) (s : CipherState) : CipherState :=
  { s with iv := iv, inbuf := [], outbuf := [] }

/-- The `whence` argument of `Seek`. -/
inductive Whence where
  | start
  | current
  | seekEnd

/-- `cipherBlockFileReader.Seek` with block size 16 (AES): computes
`blockIdx = offset / 16` and `inBlock = offset % 16`, re-seeks the
underlying file, resets the CBC state with the original IV (block 0) or
with the previous ciphertext block, then decrypts and skips `inBlock`
bytes of the target block.  `io.SeekEnd` and negative offsets return
`fs.ErrInvalid`, modelled as `none`. -/
def seekC (D : List Nat → List Nat) (offset0 : Int) (whence : Whence)
    (s : CipherState) : Option (Int × CipherState) :=
  let offset? : Option Int :=
    match whence with
    | .start => some offset0
    | .current => some (offset0 + s.off)
    | .seekEnd => none
  match offset? with
  | none => none
  | some offset =>
    if offset < 0 then none
    else
      let blockIdx := offset / 16
      let inBlock := (offset % 16).toNat
      let s0? : Option CipherState :=
        if blockIdx = 0 then
          some (resetC s.initIV { s with pos := 0 })
        else
          match readUnder 16 { s with pos := ((blockIdx - 1) * 16).toNat } with
          | none => none
          | some (ivb, s1) => some (resetC ivb s1)
      match s0? with
      | none => none
      | some s1 =>
        let s2 := { s1 with off := blockIdx * 16 }
        if 0 < inBlock then
          match fillOutbuf D s2 with
          | none => none
          | some s3 =>
            let s4 := { s3 with
              outbuf := if inBlock < s3.outbuf.length then s3.outbuf.drop inBlock else [],
              off := s3.off + inBlock }
            some (s4.off, s4)
        else some (s2.off, s2)

/-- The CBC plaintext of a whole ciphertext stream: each 16-byte block is
decrypted and XORed with the previous ciphertext block (the IV for the
first). -/
def cbcPlain (D : List Nat → List Nat) (iv : List Nat) : List Nat → List Nat
  | [] => []
  | c :: rest =>
    (D ((c :: rest).take 16)).zipWith (· ^^^ ·) iv ++
      cbcPlain D ((c :: rest).take 16) (rest.drop 15)
  termination_by d => d.length
  decreasing_by simp only [List.length_drop, List.length_cons]; omega

/-- Ciphertext block `b` of the stream. -/
def blockC (data : List Nat) (b : Nat) : List Nat := (data.drop (16 * b)).take 16

/-- The CBC chaining value in force when block `b` is decrypted. -/
def chainIV (iv0 data : List Nat) (b : Nat) : List Nat :=
  if b = 0 then iv0 else blockC data (b - 1)

-- simulation sanity check: identity block cipher, 32-byte data

/-- Invariant tying a reader state to the plaintext stream: the reader is
block-aligned at block `b`, carries the right chaining value, and
`outbuf` holds exactly the decrypted-but-undelivered bytes between the
plaintext offset `q` and the end of block `b`. -/
def GoodC (D : List Nat → List Nat) (data iv0 : List Nat) (q : Nat)
    (s : CipherState) : Prop :=
  s.data = data ∧ s.initIV = iv0 ∧ s.inbuf = [] ∧
  ∃ b : Nat, s.pos = 16 * b ∧ q ≤ 16 * b ∧ 16 * b ≤ data.length ∧
    s.iv = chainIV iv0 data b ∧
    s.outbuf = ((cbcPlain D iv0 data).take (16 * b)).drop q

/-- `Seek(p, io.SeekStart)` followed by reading `n` bytes. -/
def seekRead (D : List Nat → List Nat) (p n : Nat) (s : CipherState) :
    Option (List Nat) :=
  (seekC D (p : Int) .start s).bind (fun r => (readN D n r.2).map Prod.fst)

/-- A 32-byte ciphertext used to instantiate the seek/read theorem. -/
def c3Data : List Nat := (List.range 32).map (fun i => (i * 11 + 3) % 256)

def c3IV : List Nat := List.range 16

def c3State : CipherState := ⟨c3Data, 0, c3IV, c3IV, [], [], 0⟩


/-! ## Theorems: window (C1, C10) -/

theorem goCopyInto_length (dst : List Nat) (start : Nat) (src : List Nat) :
    (goCopyInto dst start src).1.length = dst.length := by
  simp only [goCopyInto, List.length_append, List.length_take, List.length_drop]
  omega

theorem goCopyInto_count (dst : List Nat) (start : Nat) (src : List Nat) :
    (goCopyInto dst start src).2 = min (dst.length - start) src.length := rfl

namespace Window

theorem Preserves.rfl' (a : Window) : Preserves a a :=
  ⟨rfl, rfl, rfl, rfl, fun h => h⟩

theorem Preserves.trans' {a b c : Window} (h1 : Preserves a b)
    (h2 : Preserves b c) : Preserves a c := by
  obtain ⟨s1, m1, r1, l1, w1⟩ := h1
  obtain ⟨s2, m2, r2, l2, w2⟩ := h2
  refine ⟨s2.trans s1, m2.trans m1, r2.trans r1, l2.trans l1, fun h => ?_⟩
  have hb : b.w ≤ b.size := by rw [s1]; exact w1 h
  have h2w := w2 hb
  rw [s1] at h2w
  exact h2w

theorem copyTail_preserves (i fuel : Nat) (win : Window) :
    Preserves win (copyTail i fuel win) := by
  induction fuel generalizing i win with
  | zero => exact Preserves.rfl' win
  | succ fuel ih =>
    rw [copyTail]
    by_cases h : 0 < win.l ∧ win.w < win.size
    · rw [if_pos h]
      obtain ⟨s1, m1, r1, l1, w1⟩ := ih (i + 1)
        { win with buf := win.buf.set win.w (win.buf.getD i 0),
                   w := win.w + 1, l := win.l - 1 }
      refine ⟨s1, m1, r1, by rw [l1]; simp, fun _ => ?_⟩
      exact w1 (by simpa using h.2)
    · rw [if_neg h]
      exact Preserves.rfl' win

theorem copyBytesTail_preserves (i iend : Nat) (win : Window)
    (hlen : win.buf.length = win.size) :
    Preserves win (copyBytesTail i iend win) := by
  rw [copyBytesTail]
  by_cases h : iend ≤ win.w
  · rw [if_pos h]
    refine ⟨rfl, rfl, rfl, goCopyInto_length _ _ _, fun hw => ?_⟩
    show win.w + (goCopyInto _ _ _).2 ≤ win.size
    rw [goCopyInto_count]
    omega
  · rw [if_neg h]
    exact copyTail_preserves i win.l win

theorem copyBytes_preserves (length offset : Nat) (win : Window)
    (hlen : win.buf.length = win.size) :
    Preserves win (copyBytes length offset win) := by
  simp only [copyBytes]
  by_cases h : win.w <
      (((win.w : Int) - (offset : Int)) % ((win.mask : Int) + 1)).toNat
  · rw [if_pos h]
    set i := (((win.w : Int) - (offset : Int)) % ((win.mask : Int) + 1)).toNat
    set l0 := length &&& win.mask
    set c := goCopyInto win.buf win.w
      ((win.buf.drop i).take (min (i + l0) win.size - i)) with hc
    have hpres1 : Preserves { win with l := l0, o := offset }
        { win with buf := c.1, w := win.w + c.2, l := l0 - c.2, o := offset } := by
      refine ⟨rfl, rfl, rfl, ?_, fun hw => ?_⟩
      · show c.1.length = win.buf.length
        rw [hc, goCopyInto_length]
      · have hw2 : win.w ≤ win.size := hw
        show win.w + c.2 ≤ win.size
        rw [hc, goCopyInto_count]
        omega
    by_cases h0 : l0 - c.2 = 0
    · rw [if_pos h0]
      exact hpres1
    · rw [if_neg h0]
      refine Preserves.trans' hpres1 ?_
      apply copyBytesTail_preserves
      show c.1.length = win.size
      rw [hc, goCopyInto_length, hlen]
  · rw [if_neg h]
    exact copyBytesTail_preserves _ _ _ hlen

end Window

theorem applyOp_inv (win win' : Window) (op : WinOp)
    (hInv : WindowInv win) (h : applyOp win op = some win') : WindowInv win' := by
  obtain ⟨hlen, hmask, hr, hw, j, hj, hsz⟩ := hInv
  cases op with
  | write c =>
    simp only [applyOp, Window.writeByte] at h
    by_cases hlt : win.w < win.buf.length
    · rw [if_pos hlt] at h
      cases h
      refine ⟨by simpa using hlen, hmask, hr, by simp; omega, j, hj, hsz⟩
    · rw [if_neg hlt] at h
      cases h
  | copy len off =>
    simp only [applyOp, Option.some_inj] at h
    subst h
    obtain ⟨s1, m1, r1, l1, w1⟩ := Window.copyBytes_preserves len off win hlen
    refine ⟨by rw [l1, s1, hlen], by rw [m1, s1, hmask], by rw [r1, hr],
      by rw [s1]; exact w1 hw, j, hj, by rw [s1, hsz]⟩

theorem applyOps_inv (win win' : Window) (ops : List WinOp)
    (hInv : WindowInv win) (h : applyOps win ops = some win') : WindowInv win' := by
  induction ops generalizing win with
  | nil =>
    simp only [applyOps, Option.some_inj] at h
    subst h
    exact hInv
  | cons op rest ih =>
    simp only [applyOps] at h
    obtain ⟨win1, h1, h2⟩ := Option.bind_eq_some.mp h
    exact ih win1 (applyOp_inv win win1 op hInv h1) h2

theorem reset18_eq : Window.reset 18 true initialWindow =
    ⟨List.replicate 262144 0, 262144, 262143, 0, 0, 0, 0⟩ := by
  simp [Window.reset, initialWindow, wrap64, minWindowSize, -List.reduceReplicate]

/-- Claim C1 counterexample: after a clearing reset, one `writeByte`, and a
`bytes()` drain, the quiescent state has
`buffered() + available() = size - r ≠ size`, because `bytes()` advanced
the read cursor; so the claimed equation does not hold at every quiescent
point of a writeByte/copyBytes-then-bytes() sequence. -/
theorem window_sum_counterexample :
    (Window.writeByte 1 (Window.reset 18 true initialWindow)).isSome = true ∧
    Window.buffered c1CexWin + Window.available c1CexWin ≠ c1CexWin.size := by
  have h1 : Window.writeByte 1 (Window.reset 18 true initialWindow) =
      some ⟨(List.replicate 262144 0).set 0 1, 262144, 262143, 0, 1, 0, 0⟩ := by
    rw [reset18_eq]
    simp [Window.writeByte, -List.reduceReplicate]
  refine ⟨by rw [h1]; rfl, ?_⟩
  have h2 : c1CexWin =
      ⟨(List.replicate 262144 0).set 0 1, 262144, 262143, 1, 1, 0, 0⟩ := by
    rw [c1CexWin, h1]
    simp [Window.bytes, -List.reduceReplicate]
  rw [h2]
  simp [Window.buffered, Window.available]

/-- Claim C1 (amended): starting from any state satisfying the
post-clearing-reset invariant (read cursor 0, write cursor within a buffer
whose length is the size), every sequence of `writeByte`/`copyBytes`
operations that completes without a panic reaches a quiescent state where
`buffered() + available() = size` and the size is a power of two
`≥ 0x40000`; after the final `bytes()` drain `buffered()` is 0 (and the
sum equals `size - r`, not `size`, whenever the new read cursor is
non-zero). -/
theorem window_sum_invariant (win win' : Window) (ops : List WinOp)
    (hInv : WindowInv win) (hrun : applyOps win ops = some win') :
    Window.buffered win' + Window.available win' = win'.size ∧
    (∃ j, 18 ≤ j ∧ win'.size = 2 ^ j) ∧
    Window.buffered (Window.bytes win').2 = 0 := by
  obtain ⟨hlen, hmask, hr, hw, j, hj, hsz⟩ := applyOps_inv win win' ops hInv hrun
  refine ⟨?_, ⟨j, hj, hsz⟩, ?_⟩
  · simp only [Window.buffered, Window.available]
    omega
  · simp [Window.bytes, Window.buffered]

theorem window_sum_invariant_witness :
    Window.buffered c1WitWin + Window.available c1WitWin = c1WitWin.size ∧
    (∃ j, 18 ≤ j ∧ c1WitWin.size = 2 ^ j) ∧
    Window.buffered (Window.bytes c1WitWin).2 = 0 := by
  refine window_sum_invariant (Window.reset 18 true initialWindow) c1WitWin
    [WinOp.write 5] ?_ ?_
  · rw [reset18_eq]
    exact ⟨by simp [-List.reduceReplicate], by norm_num, rfl, by norm_num,
      18, le_refl 18, by norm_num⟩
  · rw [reset18_eq]
    simp [applyOps, applyOp, Window.writeByte, c1WitWin, -List.reduceReplicate]

theorem wrap64_two_pow (k : Nat) (h : k ≤ 62) : wrap64 (2 ^ k) = 2 ^ k := by
  have h1 : (2:Int) ^ k ≤ 2 ^ 62 := pow_le_pow_right₀ (by norm_num) h
  rw [wrap64, Int.emod_eq_of_lt (by positivity) (by norm_num at h1 ⊢; omega)]
  omega

/-- Claim C10 counterexample: `reset(63, clear)` computes `1 << 63`, which
overflows a 64-bit int to a negative value, so the size is clamped to
`0x40000` and the buffer length is `0x40000`, not
`max(previous length, max(2^63, 0x40000)) = 2^63` as the claim's formula
requires for `log2size = 63`. -/
theorem reset_growth_counterexample :
    (Window.reset 63 true initialWindow).buf.length = 0x40000 ∧
    (0x40000 : Nat) ≠ max initialWindow.buf.length (max (2 ^ 63) 0x40000) := by
  constructor
  · simp [Window.reset, initialWindow, wrap64, minWindowSize, -List.reduceReplicate]
  · norm_num [initialWindow]

/-- Claim C10 (amended): after any `reset(log2size, clear)`, the buffer
length equals `max(previous length, clamp(wrap64(2^log2size)))` where
values below `0x40000` (including the overflowed results for
`log2size ≥ 63`) are clamped up to `0x40000`; in particular for
`log2size ≤ 62` it equals `max(previous length, max(2^log2size, 0x40000))`
exactly as claimed, so the buffer never shrinks; and after every reset the
read cursor equals the write cursor. -/
theorem reset_buf_growth (win : Window) (log2size : Nat) (clear : Bool) :
    (Window.reset log2size clear win).buf.length =
      max win.buf.length
        (if wrap64 (2 ^ log2size) < (minWindowSize : Int) then minWindowSize
         else (wrap64 (2 ^ log2size)).toNat) ∧
    (Window.reset log2size clear win).r = (Window.reset log2size clear win).w ∧
    (log2size ≤ 62 →
      (Window.reset log2size clear win).buf.length =
        max win.buf.length (max (2 ^ log2size) minWindowSize)) := by
  have hmain : (Window.reset log2size clear win).buf.length =
      max win.buf.length
        (if wrap64 (2 ^ log2size) < (minWindowSize : Int) then minWindowSize
         else (wrap64 (2 ^ log2size)).toNat) ∧
      (Window.reset log2size clear win).r = (Window.reset log2size clear win).w := by
    simp only [Window.reset]
    set s : Nat := if wrap64 (2 ^ log2size) < (minWindowSize : Int) then minWindowSize
      else (wrap64 (2 ^ log2size)).toNat with hs
    by_cases hlt : win.buf.length < s
    · rw [if_pos hlt]
      cases clear with
      | true =>
        rw [if_pos rfl]
        refine ⟨?_, rfl⟩
        dsimp only
        rw [List.length_replicate]
        omega
      | false =>
        rw [if_neg (by simp)]
        by_cases hpos : 0 < win.buf.length
        · rw [if_pos hpos]
          refine ⟨?_, rfl⟩
          dsimp only
          rw [goCopyInto_length, goCopyInto_length, List.length_replicate]
          omega
        · rw [if_neg hpos]
          refine ⟨?_, rfl⟩
          dsimp only
          rw [List.length_replicate]
          omega
    · rw [if_neg hlt]
      cases clear with
      | true =>
        rw [if_pos rfl]
        refine ⟨?_, rfl⟩
        dsimp only
        rw [List.length_replicate]
        omega
      | false =>
        rw [if_neg (by simp)]
        refine ⟨?_, rfl⟩
        dsimp only
        omega
  refine ⟨hmain.1, hmain.2, fun hk => ?_⟩
  rw [hmain.1, wrap64_two_pow log2size hk]
  have hcast : ((2:Int) ^ log2size) = ((2 ^ log2size : Nat) : Int) := by push_cast; ring
  rw [hcast]
  by_cases hsm : (2 : Nat) ^ log2size < minWindowSize
  · rw [if_pos (by exact_mod_cast hsm)]
    omega
  · rw [if_neg (by exact_mod_cast hsm), Int.toNat_natCast]
    omega

theorem reset_buf_growth_witness :
    (Window.reset 2 true initialWindow).buf.length =
      max initialWindow.buf.length (max (2 ^ 2) minWindowSize) ∧
    (Window.reset 2 true initialWindow).r = (Window.reset 2 true initialWindow).w :=
  ⟨(reset_buf_growth initialWindow 2 true).2.2 (by norm_num),
   (reset_buf_growth initialWindow 2 true).2.1⟩

/-! ## Theorems: readUint32 (C2) -/

theorem bytesVal_lt (bs : List Nat) (hb : ∀ c ∈ bs, c < 256) :
    bytesVal bs < 2 ^ (8 * bs.length) := by
  induction bs with
  | nil => simp [bytesVal]
  | cons c rest ih =>
    have hc : c < 256 := hb c (by simp)
    have hr : bytesVal rest < 2 ^ (8 * rest.length) :=
      ih (fun d hd => hb d (by simp [hd]))
    simp only [bytesVal, List.length_cons]
    have h8 : 2 ^ (8 * (rest.length + 1)) = 2 ^ (8 * rest.length) * 2 ^ 8 := by
      rw [← pow_add]
      ring_nf
    rw [h8]
    nlinarith

theorem chunk_mod (A B m d : Nat) (hB : B < 2 ^ m) :
    (A * 2 ^ m + B) % 2 ^ (d + m) = (A % 2 ^ d) * 2 ^ m + B := by
  have hd := Nat.div_add_mod A (2 ^ d)
  have hpow : (2:Nat) ^ (d + m) = 2 ^ d * 2 ^ m := pow_add 2 d m
  have hlt : (A % 2 ^ d) * 2 ^ m + B < 2 ^ d * 2 ^ m := by
    have : A % 2 ^ d < 2 ^ d := Nat.mod_lt _ (by positivity)
    nlinarith
  calc (A * 2 ^ m + B) % 2 ^ (d + m)
      = ((A % 2 ^ d) * 2 ^ m + B + (A / 2 ^ d) * 2 ^ (d + m)) % 2 ^ (d + m) := by
        congr 1
        rw [hpow]
        nlinarith [hd]
    _ = ((A % 2 ^ d) * 2 ^ m + B) % 2 ^ (d + m) := Nat.add_mul_mod_self_right _ _ _
    _ = (A % 2 ^ d) * 2 ^ m + B := Nat.mod_eq_of_lt (by rw [hpow]; exact hlt)

theorem chunk_div (A B m d : Nat) (hB : B < 2 ^ m) :
    (A * 2 ^ m + B) / 2 ^ (d + m) = A / 2 ^ d := by
  have hpow : (2:Nat) ^ (d + m) = 2 ^ m * 2 ^ d := by rw [pow_add]; ring
  rw [hpow, ← Nat.div_div_eq_div_mul]
  congr 1
  rw [mul_comm, Nat.mul_add_div (by positivity), Nat.div_eq_of_lt hB, add_zero]

theorem shiftLeft_or_byte (v c : Nat) (hc : c < 2 ^ 8) :
    (v <<< 8) ||| c = v * 2 ^ 8 + c := by
  rw [Nat.shiftLeft_eq, mul_comm v (2 ^ 8), ← Nat.mul_add_lt_is_or hc]

theorem readBits_base (k v n : Nat) (bs : List Nat)
    (hbytes : ∀ c ∈ bs, c < 256) (hk : k ≤ n) :
    readBits k ⟨v, n, bs⟩ =
      some (streamVal ⟨v, n, bs⟩ / 2 ^ (streamLen ⟨v, n, bs⟩ - k),
        ⟨v, n - k, bs⟩) ∧
    streamLen ⟨v, n - k, bs⟩ = streamLen ⟨v, n, bs⟩ - k ∧
    streamVal ⟨v, n - k, bs⟩ = streamVal ⟨v, n, bs⟩ % 2 ^ (streamLen ⟨v, n, bs⟩ - k) := by
  have hB : bytesVal bs < 2 ^ (8 * bs.length) := bytesVal_lt bs hbytes
  have hpow : (2:Nat) ^ n = 2 ^ (n - k) * 2 ^ k := by
    rw [← pow_add]
    congr 1
    omega
  have hLk : streamLen ⟨v, n, bs⟩ - k = (n - k) + 8 * bs.length := by
    simp only [streamLen]
    omega
  have hval : streamVal ⟨v, n, bs⟩ / 2 ^ (streamLen ⟨v, n, bs⟩ - k) =
      (v >>> (n - k)) &&& ((1 <<< k) - 1) := by
    rw [hLk]
    simp only [streamVal]
    rw [chunk_div _ _ _ _ hB]
    rw [Nat.shiftRight_eq_div_pow, Nat.shiftLeft_eq, one_mul,
      Nat.and_pow_two_sub_one_eq_mod]
    rw [hpow, Nat.mod_mul_right_div_self]
  refine ⟨?_, by simp only [streamLen]; omega, ?_⟩
  · simp only [readBits]
    cases bs with
    | nil => rw [readBitsGo, if_pos hk, hval]
    | cons c rest => rw [readBitsGo, if_pos hk, hval]
  · rw [hLk]
    simp only [streamVal]
    rw [chunk_mod _ _ _ _ hB, Nat.mod_mod_of_dvd v (pow_dvd_pow 2 (by omega))]

theorem readBits_spec (k : Nat) (bs : List Nat) : ∀ (v n : Nat),
    (∀ c ∈ bs, c < 256) → k ≤ n + 8 * bs.length →
    ∃ r', readBits k ⟨v, n, bs⟩ =
        some (streamVal ⟨v, n, bs⟩ / 2 ^ (streamLen ⟨v, n, bs⟩ - k), r') ∧
      streamLen r' = streamLen ⟨v, n, bs⟩ - k ∧
      streamVal r' = streamVal ⟨v, n, bs⟩ % 2 ^ (streamLen ⟨v, n, bs⟩ - k) ∧
      (∀ c ∈ r'.b, c < 256) := by
  induction bs with
  | nil =>
    intro v n hbytes hk
    simp only [List.length_nil, mul_zero, add_zero] at hk
    obtain ⟨h1, h2, h3⟩ := readBits_base k v n [] (by simp) hk
    exact ⟨⟨v, n - k, []⟩, h1, h2, h3, by simp⟩
  | cons c rest ih =>
    intro v n hbytes hk
    by_cases hkn : k ≤ n
    · obtain ⟨h1, h2, h3⟩ := readBits_base k v n (c :: rest) hbytes hkn
      exact ⟨⟨v, n - k, c :: rest⟩, h1, h2, h3, hbytes⟩
    · have hc : c < 256 := hbytes c (by simp)
      have hrest : ∀ d ∈ rest, d < 256 := fun d hd => hbytes d (by simp [hd])
      have hlen : streamLen ⟨(v <<< 8) ||| c, n + 8, rest⟩ =
          streamLen ⟨v, n, (c :: rest)⟩ := by
        simp only [streamLen, List.length_cons]
        omega
      have hvaleq : streamVal ⟨(v <<< 8) ||| c, n + 8, rest⟩ =
          streamVal ⟨v, n, (c :: rest)⟩ := by
        simp only [streamVal, bytesVal, List.length_cons]
        rw [shiftLeft_or_byte v c hc, chunk_mod v c 8 n hc]
        have h8 : (2:Nat) ^ (8 * (rest.length + 1)) = 2 ^ 8 * 2 ^ (8 * rest.length) := by
          rw [← pow_add]
          congr 1
          ring
        rw [h8]
        ring
      obtain ⟨r', h1, h2, h3, h4⟩ := ih ((v <<< 8) ||| c) (n + 8) hrest
        (by simp only [streamLen, List.length_cons] at hk ⊢; omega)
      refine ⟨r', ?_, ?_, ?_, h4⟩
      · simp only [readBits] at h1 ⊢
        rw [readBitsGo, if_neg hkn, h1, hvaleq, hlen]
      · rw [h2, hlen]
      · rw [h3, hvaleq, hlen]

theorem readBits_spec' (k : Nat) (r : RarBitReader)
    (hb : ∀ c ∈ r.b, c < 256) (hk : k ≤ streamLen r) :
    ∃ r', readBits k r = some (streamVal r / 2 ^ (streamLen r - k), r') ∧
      streamLen r' = streamLen r - k ∧
      streamVal r' = streamVal r % 2 ^ (streamLen r - k) ∧
      ∀ c ∈ r'.b, c < 256 := by
  obtain ⟨v, n, bs⟩ := r
  exact readBits_spec k bs v n hb (by simpa [streamLen] using hk)

theorem streamVal_lt (r : RarBitReader) (hb : ∀ c ∈ r.b, c < 256) :
    streamVal r < 2 ^ streamLen r := by
  obtain ⟨v, n, bs⟩ := r
  have hB : bytesVal bs < 2 ^ (8 * bs.length) := bytesVal_lt bs hb
  simp only [streamVal, streamLen]
  have hv : v % 2 ^ n < 2 ^ n := Nat.mod_lt _ (by positivity)
  rw [pow_add]
  nlinarith

theorem slice_mod_div (V a k : Nat) (hk : k ≤ a) :
    V % 2 ^ a / 2 ^ (a - k) = V / 2 ^ (a - k) % 2 ^ k := by
  have h : (2:Nat) ^ a = 2 ^ (a - k) * 2 ^ k := by
    rw [← pow_add]
    congr 1
    omega
  rw [h, Nat.mod_mul_right_div_self]

theorem mod_mod_pow (V a b : Nat) (h : b ≤ a) : V % 2 ^ a % 2 ^ b = V % 2 ^ b :=
  Nat.mod_mod_of_dvd V (pow_dvd_pow 2 h)

theorem negOr_uint32 (l : Nat) (hl : l < 256) :
    (l ||| (2 ^ 64 - 2 ^ 8)) % 2 ^ 32 = 0xFFFFFF00 ||| l := by
  have h1 : (2:Nat) ^ 64 - 2 ^ 8 = 2 ^ 8 * (2 ^ 56 - 1) := by norm_num
  have h2 : l ||| (2 ^ 8 * (2 ^ 56 - 1)) = 2 ^ 8 * (2 ^ 56 - 1) + l := by
    rw [Nat.lor_comm, ← Nat.mul_add_lt_is_or (by norm_num at hl ⊢; omega) (2 ^ 56 - 1)]
  have h3 : (0xFFFFFF00 : Nat) = 2 ^ 8 * (2 ^ 24 - 1) := by norm_num
  have h4 : (2:Nat) ^ 8 * (2 ^ 24 - 1) ||| l =
      2 ^ 8 * (2 ^ 24 - 1) + l :=
    (Nat.mul_add_lt_is_or (by norm_num at hl ⊢; omega) (2 ^ 24 - 1)).symm
  rw [h1, h2, h3, h4]
  norm_num
  omega

/-- Claim C2 (amended): `readUint32` decodes per the corrected table —
after 2 leading bits: 00 reads 4 more bits (the value); 10 reads 16 more
bits (the value); 11 reads 32 more bits (the value); 01 reads 4 bits `h`,
then if `h = 0` reads 8 bits `l` returning `0xFFFFFF00 ||| l`, otherwise
4 bits `l` returning `(h <<< 4) ||| l`.  Stated over the unread bit
stream: the leading 2 bits are `V / 2^(L-2)` and each subsequent field is
the corresponding div/mod slice of the stream value `V`. -/
theorem readUint32_table (r : RarBitReader) (hb : ∀ c ∈ r.b, c < 256)
    (hlen : 34 ≤ streamLen r) :
    (readUint32 r).map Prod.fst = some
      (if streamVal r / 2 ^ (streamLen r - 2) = 0 then
        streamVal r / 2 ^ (streamLen r - 6) % 2 ^ 4
      else if streamVal r / 2 ^ (streamLen r - 2) = 2 then
        streamVal r / 2 ^ (streamLen r - 18) % 2 ^ 16
      else if streamVal r / 2 ^ (streamLen r - 2) = 3 then
        streamVal r / 2 ^ (streamLen r - 34) % 2 ^ 32
      else if streamVal r / 2 ^ (streamLen r - 6) % 2 ^ 4 = 0 then
        0xFFFFFF00 ||| streamVal r / 2 ^ (streamLen r - 14) % 2 ^ 8
      else (streamVal r / 2 ^ (streamLen r - 6) % 2 ^ 4) <<< 4 |||
        streamVal r / 2 ^ (streamLen r - 10) % 2 ^ 4) := by
  obtain ⟨r1, h1, hL1, hV1, hb1⟩ := readBits_spec' 2 r hb (by omega)
  have hVL := streamVal_lt r hb
  set L := streamLen r with hL
  set V := streamVal r with hV
  rw [readUint32, h1]
  dsimp only
  have hc4 : V / 2 ^ (L - 2) < 4 := by
    have hp : (2:Nat) ^ L = 2 ^ (L - 2) * 4 := by
      rw [(by norm_num : (4:Nat) = 2 ^ 2), ← pow_add]
      congr 1
      omega
    exact Nat.div_lt_of_lt_mul (hp ▸ hVL)
  have hcases : V / 2 ^ (L - 2) = 0 ∨ V / 2 ^ (L - 2) = 1 ∨
      V / 2 ^ (L - 2) = 2 ∨ V / 2 ^ (L - 2) = 3 := by
    generalize V / 2 ^ (L - 2) = c2 at hc4 ⊢
    omega
  rcases hcases with hc | hc | hc | hc
  · rw [hc, if_pos (by decide)]
    obtain ⟨r2, h2, hL2, hV2, hb2⟩ := readBits_spec' 4 r1 hb1 (by rw [hL1]; omega)
    rw [(by decide : (4:Nat) <<< 0 = 4), h2, hV1, hL1,
      slice_mod_div V (L - 2) 4 (by omega), (by omega : L - 2 - 4 = L - 6)]
    rw [if_pos rfl]
    rfl
  · rw [hc, if_neg (by decide)]
    obtain ⟨r2, h2, hL2, hV2, hb2⟩ := readBits_spec' 4 r1 hb1 (by rw [hL1]; omega)
    rw [h2]
    dsimp only
    rw [hV1, hL1, slice_mod_div V (L - 2) 4 (by omega),
      (by omega : L - 2 - 4 = L - 6)]
    by_cases hh : V / 2 ^ (L - 6) % 2 ^ 4 = 0
    · rw [hh, if_pos rfl]
      obtain ⟨r3, h3, hL3, hV3, hb3⟩ := readBits_spec' 8 r2 hb2 (by rw [hL2, hL1]; omega)
      rw [h3]
      dsimp only
      rw [hV2, hL2, hV1, hL1, (by omega : L - 2 - 4 = L - 6),
        mod_mod_pow V (L - 2) (L - 6) (by omega),
        slice_mod_div V (L - 6) 8 (by omega), (by omega : L - 6 - 8 = L - 14)]
      rw [if_neg (by omega), if_neg (by omega), if_neg (by omega), if_pos rfl]
      have hl8 : V / 2 ^ (L - 14) % 2 ^ 8 < 256 := Nat.mod_lt _ (by norm_num)
      rw [negOr_uint32 _ hl8]
      rfl
    · rw [if_neg hh]
      obtain ⟨r3, h3, hL3, hV3, hb3⟩ := readBits_spec' 4 r2 hb2 (by rw [hL2, hL1]; omega)
      rw [h3]
      dsimp only
      rw [hV2, hL2, hV1, hL1, (by omega : L - 2 - 4 = L - 6),
        mod_mod_pow V (L - 2) (L - 6) (by omega),
        slice_mod_div V (L - 6) 4 (by omega), (by omega : L - 6 - 4 = L - 10)]
      rw [if_neg (by omega), if_neg (by omega), if_neg (by omega), if_neg hh]
      rfl
  · rw [hc, if_pos (by decide)]
    obtain ⟨r2, h2, hL2, hV2, hb2⟩ := readBits_spec' 16 r1 hb1 (by rw [hL1]; omega)
    rw [(by decide : (4:Nat) <<< 2 = 16), h2, hV1, hL1,
      slice_mod_div V (L - 2) 16 (by omega), (by omega : L - 2 - 16 = L - 18)]
    rw [if_neg (by omega), if_pos rfl]
    rfl
  · rw [hc, if_pos (by decide)]
    obtain ⟨r2, h2, hL2, hV2, hb2⟩ := readBits_spec' 32 r1 hb1 (by rw [hL1]; omega)
    rw [(by decide : (4:Nat) <<< 3 = 32), h2, hV1, hL1,
      slice_mod_div V (L - 2) 32 (by omega), (by omega : L - 2 - 32 = L - 34)]
    rw [if_neg (by omega), if_neg (by omega), if_pos rfl]
    rfl

/-- Claim C2 counterexample: on the input bytes `80 40 00` (leading bits
10), `readUint32` reads 16 more bits yielding 256, while the claim's
table says 8 more bits are read, yielding 1. -/
theorem readUint32_counterexample :
    (readUint32 ⟨0, 0, [0x80, 0x40, 0x00]⟩).map Prod.fst = some 256 ∧
    (readUint32Claim ⟨0, 0, [0x80, 0x40, 0x00]⟩).map Prod.fst = some 1 ∧
    (256 : Nat) ≠ 1 := by
  exact ⟨by decide, by decide, by decide⟩

theorem readUint32_table_witness :
    (readUint32 ⟨0, 0, [0x12, 0x34, 0x56, 0x78, 0x9A]⟩).map Prod.fst =
      some 4 := by
  have h := readUint32_table ⟨0, 0, [0x12, 0x34, 0x56, 0x78, 0x9A]⟩
    (by decide) (by decide)
  rw [h]
  decide

/-! ## Theorems: checksumReader.eofError (C4) -/

theorem getD_set_ne' (l : List Nat) (i j a : Nat) (h : i ≠ j) :
    (l.set i a).getD j 0 = l.getD j 0 := by
  simp [List.getD_eq_getElem?_getD, List.getElem?_set_ne h]

theorem getD_set_self' (l : List Nat) (i a : Nat) (h : i < l.length) :
    (l.set i a).getD i 0 = a := by
  simp [List.getD_eq_getElem?_getD, List.getElem?_set_self h]

theorem and_three_eq_mod (x : Nat) : x &&& 3 = x % 4 := by
  have h := Nat.and_pow_two_sub_one_eq_mod x 2
  norm_num at h
  exact h

theorem xorAcc_succ (s : List Nat) (j k : Nat) :
    xorAcc s j (k + 1) =
      if k &&& 3 = j then xorAcc s j k ^^^ s.getD (4 + k) 0 else xorAcc s j k := by
  rw [xorAcc, xorAcc, List.range_succ, List.filter_append, List.foldl_append]
  by_cases h : k &&& 3 = j
  · simp [h]
  · simp [h]

theorem foldA_spec (s : List Nat) (hlen : 4 ≤ s.length) (k : Nat) :
    ((List.range k).foldl foldStep s).length = s.length ∧
    (∀ m, 4 ≤ m → ((List.range k).foldl foldStep s).getD m 0 = s.getD m 0) ∧
    (∀ j, j < 4 → ((List.range k).foldl foldStep s).getD j 0 = xorAcc s j k) := by
  induction k with
  | zero =>
    refine ⟨rfl, fun m _ => rfl, fun j hj => ?_⟩
    simp [xorAcc]
  | succ k ih =>
    obtain ⟨ihl, ihh, ihlo⟩ := ih
    rw [List.range_succ, List.foldl_append, List.foldl_cons, List.foldl_nil]
    have hk3 : k &&& 3 < 4 := by
      have h := Nat.and_le_right (n := k) (m := 3)
      omega
    refine ⟨?_, ?_, ?_⟩
    · rw [foldStep, List.length_set, ihl]
    · intro m hm
      rw [foldStep, getD_set_ne' _ _ _ _ (by omega), ihh m hm]
    · intro j hj
      rw [foldStep]
      by_cases hjk : k &&& 3 = j
      · rw [hjk, getD_set_self' _ _ _ (by rw [ihl]; omega)]
        rw [ihlo j hj, ihh (4 + k) (by omega), xorAcc_succ, if_pos hjk]
      · rw [getD_set_ne' _ _ _ _ hjk, ihlo j hj, xorAcc_succ, if_neg hjk]

theorem take_four_eq (l : List Nat) (h : 4 ≤ l.length) :
    l.take 4 = [l.getD 0 0, l.getD 1 0, l.getD 2 0, l.getD 3 0] := by
  rcases l with _ | ⟨a, _ | ⟨b, _ | ⟨c, _ | ⟨d, t⟩⟩⟩⟩ <;>
    simp_all [List.getD]

theorem specEntry_eq_xorAcc (s : List Nat) (j : Nat) (hlen : 4 ≤ s.length) :
    ((List.range s.length).filter (fun i => 4 ≤ i ∧ i &&& 3 = j)).foldl
      (fun acc i => acc ^^^ s.getD i 0) (s.getD j 0) = xorAcc s j (s.length - 4) := by
  have hsplit : List.range s.length =
      List.range 4 ++ (List.range (s.length - 4)).map (4 + ·) := by
    rw [← List.range_add]
    congr 1
    omega
  rw [hsplit, List.filter_append]
  have h4 : (List.range 4).filter (fun i => decide (4 ≤ i ∧ i &&& 3 = j)) = [] := by
    simp [List.range_succ]
  have hpred : ∀ i : Nat,
      ((fun i => decide (4 ≤ i ∧ i &&& 3 = j)) ∘ fun x => 4 + x) i =
        (fun i => decide (i &&& 3 = j)) i := by
    intro i
    simp only [Function.comp]
    apply decide_eq_decide.mpr
    rw [and_three_eq_mod, and_three_eq_mod]
    omega
  rw [h4, List.nil_append, List.filter_map, List.foldl_map, xorAcc,
    List.filter_congr (fun a _ => hpred a)]

theorem foldSum_eq_spec (s : List Nat) (hlen : 4 ≤ s.length) :
    foldSum s = foldSumSpec s := by
  obtain ⟨ihl, ihh, ihlo⟩ := foldA_spec s hlen (s.length - 4)
  rw [foldSum, foldSumSpec, take_four_eq _ (by omega)]
  have hr4 : List.range 4 = [0, 1, 2, 3] := by decide
  rw [hr4]
  simp only [List.map_cons, List.map_nil]
  rw [ihlo 0 (by omega), ihlo 1 (by omega), ihlo 2 (by omega), ihlo 3 (by omega),
    specEntry_eq_xorAcc s 0 hlen, specEntry_eq_xorAcc s 1 hlen,
    specEntry_eq_xorAcc s 2 hlen, specEntry_eq_xorAcc s 3 hlen]

/-- Claim C4: at EOF the checksum reader finalises the hash; with a
non-empty HMAC key it recomputes `sum = HMAC_SHA256(key, sum)` and, when
the expected checksum is 4 bytes long, folds the 32-byte output by XORing
every byte at index `i ≥ 4` into position `i &&& 3` and truncating to 4
bytes; it returns the "bad file checksum" error iff the sums differ, and
`io.EOF` on a match.  (The comparison itself is `bytes.Equal`; the
"constant time" wording is a timing property with no functional
content.) -/
theorem eofError_eq_spec (hashSum hashKey expectedSum hmacSum : List Nat)
    (h32 : hmacSum.length = 32) :
    eofError hashSum hashKey expectedSum hmacSum =
      eofErrorSpec hashSum hashKey expectedSum hmacSum := by
  rw [eofError, eofErrorSpec]
  have hf : foldSum hmacSum = foldSumSpec hmacSum :=
    foldSum_eq_spec hmacSum (by omega)
  cases hashKey with
  | nil => simp
  | cons a t => simp [hf]

theorem eofError_eq_spec_witness :
    eofError [1, 2] [9] [0, 1, 2, 3] (List.replicate 32 7) =
      eofErrorSpec [1, 2] [9] [0, 1, 2, 3] (List.replicate 32 7) :=
  eofError_eq_spec [1, 2] [9] [0, 1, 2, 3] (List.replicate 32 7) (by simp)

/-! ## Theorems: queueFilter (C5) -/

theorem relOffset_eq (off : Nat) (fs : List FilterBlock) :
    relOffset off fs =
      if ∃ k < fs.length, off < sumOffsets (fs.take (k + 1)) then none
      else some (off - sumOffsets fs) := by
  induction fs generalizing off with
  | nil => simp [relOffset, sumOffsets]
  | cons fb rest ih =>
    simp only [relOffset]
    by_cases h : off < fb.offset
    · rw [if_pos h, if_pos]
      exact ⟨0, by simp, by simpa [sumOffsets] using h⟩
    · rw [if_neg h, ih]
      by_cases hex : ∃ k < rest.length, off - fb.offset < sumOffsets (rest.take (k + 1))
      · rw [if_pos hex, if_pos]
        obtain ⟨k, hk, hlt⟩ := hex
        refine ⟨k + 1, by simpa using hk, ?_⟩
        simp only [List.take_succ_cons, sumOffsets]
        omega
      · rw [if_neg hex, if_neg]
        · simp only [sumOffsets]
          congr 1
          omega
        · rintro ⟨k, hk, hlt⟩
          rcases k with _ | k
          · simp [sumOffsets] at hlt
            omega
          · refine hex ⟨k, by simpa using hk, ?_⟩
            simp only [List.take_succ_cons, sumOffsets] at hlt
            omega

/-- Claim C5: `queueFilter` fails with the "too many filters" error when the
queue already holds 8192 filters, fails with the "invalid filter" error when
the new filter's window-masked offset lies before a previously queued filter
(a negative offset delta), and otherwise appends the filter with its offset
converted to the distance from the previous filter in the queue. -/
theorem queueFilter_eq_spec (mask : Nat) (filters : List FilterBlock)
    (f : FilterBlock) : queueFilter mask filters f = queueFilterSpec mask filters f := by
  unfold queueFilter queueFilterSpec
  by_cases hlen : maxQueuedFilters ≤ filters.length
  · rw [if_pos hlen, if_pos hlen]
  · rw [if_neg hlen, if_neg hlen]
    simp only [relOffset_eq]
    by_cases hex : ∃ k < filters.length,
        f.offset &&& mask < sumOffsets (filters.take (k + 1))
    · rw [if_pos hex, if_pos hex]
    · rw [if_neg hex, if_neg hex]

/-! ## Theorems: limitedReader (C6) -/

/-- Claim C6 counterexample: with remaining count `n = 1 > 0`, a `Read` in
which the inner reader returns `(1, io.EOF)` (all remaining bytes together
with EOF) yields `io.EOF`, not the ShortFile error, contradicting the claim
that any inner EOF with `n > 0` is mapped to ShortFile. -/
theorem limitedRead_eof_counterexample :
    (limitedRead 1 .shortFile 1 (fun _ => (1, some .eof))).1 = (1, some GoErr.eof) ∧
    some GoErr.eof ≠ some GoErr.shortFile := by
  exact ⟨rfl, by decide⟩

/-- Claim C6 (amended): once the remaining count is `≤ 0`, `Read` returns
`(0, io.EOF)`; and when `n > 0` and the inner reader returns `io.EOF`
having delivered fewer bytes than the remaining count, `Read` returns the
configured short-read error (ShortFile) instead of `io.EOF`. -/
theorem limitedRead_short_and_eof (n : Int) (shortErr : GoErr) (plen : Nat)
    (inner : Nat → Nat × Option GoErr) :
    (n ≤ 0 → limitedRead n shortErr plen inner = ((0, some .eof), n)) ∧
    (∀ nn : Nat, 0 < n →
      inner (if (plen : Int) > n then n.toNat else plen) = (nn, some .eof) →
      (nn : Int) < n →
      limitedRead n shortErr plen inner = ((nn, some shortErr), n - nn)) := by
  constructor
  · intro h
    simp [limitedRead, h]
  · intro nn hn hi hlt
    rw [limitedRead, if_neg (by omega)]
    simp only [hi]
    rw [if_pos ⟨trivial, by omega⟩]

theorem limitedRead_short_and_eof_witness :
    limitedRead 0 GoErr.shortFile 3 (fun _ => (0, none)) = ((0, some GoErr.eof), 0) ∧
    limitedRead 2 GoErr.shortFile 5 (fun _ => (1, some GoErr.eof)) =
      ((1, some GoErr.shortFile), 1) :=
  ⟨(limitedRead_short_and_eof 0 GoErr.shortFile 3 (fun _ => (0, none))).1 (by decide),
   (limitedRead_short_and_eof 2 GoErr.shortFile 5 (fun _ => (1, some GoErr.eof))).2
     1 (by decide) rfl (by decide)⟩

/-! ## Theorems: uvarint (C7) -/

/-- Claim C7 counterexample: the invalid (truncated) uvarint `[0x80]`
produces exactly the same result as the valid encoding `[0x00]` of 0:
`readBuf.uvarint` has no error path and silently continues with the
default value 0, contradicting the claim that an invalid uvarint is a
fatal error with a specific kind. -/
theorem uvarint_invalid_counterexample :
    uvarint [0x80] = uvarint [0x00] ∧ uvarint [0x00] = (0, []) := by
  decide

theorem uvarintAux_exhausted (x s : Nat) (b : List Nat)
    (h : ∀ c ∈ b, 0x80 ≤ c) : uvarintAux x s b = (0, []) := by
  induction b generalizing x s with
  | nil => rfl
  | cons c rest ih =>
    have hc := h c (by simp)
    rw [uvarintAux, if_neg (by omega)]
    exact ih _ _ (fun d hd => h d (by simp [hd]))

/-- Claim C7 (amended): an invalid uvarint — the buffer is exhausted before
a terminating byte below 0x80 appears — is not reported as an error:
`readBuf.uvarint` silently consumes the whole buffer and returns the
default value 0. -/
theorem uvarint_invalid_returns_zero (b : List Nat) (h : ∀ c ∈ b, 0x80 ≤ c) :
    uvarint b = (0, []) :=
  uvarintAux_exhausted 0 0 b h

theorem uvarint_invalid_returns_zero_witness :
    uvarint [0x80, 0xff] = (0, []) :=
  uvarint_invalid_returns_zero [0x80, 0xff] (by decide)

/-! ## Theorems: nextOldVolName (C8) -/

/-- Claim C8: when the extension after the last '.' has digits in both its
2nd and 3rd characters, `nextOldVolName` increments that two-digit base-10
counter by one with 9→0 carry, a full carry bumping the first extension
character (or setting it to 'A' when that character was '9'); when the
(non-empty) extension is not of the form `<any><digit><digit>`, the
extension is replaced by its first character followed by "00".  The bump
of the first character is a byte increment: `(e0 + 1) % 256`, which is
`e0 + 1` for every byte except `0xFF`, where it wraps to `0x00`. -/
theorem nextOldVolName_correct (file : List Nat) :
    (∀ e0 e1 e2 rest,
      extAfterLastDot file = e0 :: e1 :: e2 :: rest →
      48 ≤ e1 → e1 ≤ 57 → 48 ≤ e2 → e2 ≤ 57 →
      nextOldVolName file =
        some (volPre file ++
          (if (e1 - 48) * 10 + (e2 - 48) < 99 then
            e0 :: (48 + ((e1 - 48) * 10 + (e2 - 48) + 1) / 10) ::
              (48 + ((e1 - 48) * 10 + (e2 - 48) + 1) % 10) :: rest
          else (if e0 = 57 then 65 else (e0 + 1) % 256) :: 48 :: 48 :: rest))) ∧
    (∀ e0 tail,
      extAfterLastDot file = e0 :: tail →
      ¬(3 ≤ (e0 :: tail).length
          ∧ 48 ≤ (e0 :: tail).getD 1 0 ∧ (e0 :: tail).getD 1 0 ≤ 57
          ∧ 48 ≤ (e0 :: tail).getD 2 0 ∧ (e0 :: tail).getD 2 0 ≤ 57) →
      nextOldVolName file = some (volPre file ++ [e0, 48, 48])) := by
  constructor
  · intro e0 e1 e2 rest hb h1l h1u h2l h2u
    simp only [nextOldVolName, hb]
    rw [if_neg (by simp only [List.length_cons, List.getD_cons_succ,
      List.getD_cons_zero]; omega)]
    simp only [incOldExt, List.getD_cons_succ, List.getD_cons_zero,
      List.set_cons_succ, List.set_cons_zero]
    by_cases h2 : e2 = 57
    · by_cases h1 : e1 = 57
      · by_cases h0 : e0 = 57
        · subst h2 h1 h0
          norm_num
        · subst h2 h1
          rw [if_neg (by omega), if_neg (by omega), if_pos h0]
          rw [if_neg (by omega), if_neg h0]
      · subst h2
        rw [if_neg (by omega), if_pos h1]
        have ha : 48 + ((e1 - 48) * 10 + (57 - 48) + 1) / 10 = (e1 + 1) % 256 := by
          omega
        have hc : 48 + ((e1 - 48) * 10 + (57 - 48) + 1) % 10 = 48 := by omega
        rw [if_pos (by omega), ha, hc]
    · rw [if_pos h2]
      have ha : 48 + ((e1 - 48) * 10 + (e2 - 48) + 1) / 10 = e1 := by omega
      have hc : 48 + ((e1 - 48) * 10 + (e2 - 48) + 1) % 10 = (e2 + 1) % 256 := by
        omega
      rw [if_pos (by omega), ha, hc]
  · intro e0 tail hb hcond
    simp only [nextOldVolName, hb]
    rw [if_pos (by omega)]

theorem nextOldVolName_correct_witness :
    nextOldVolName [97, 114, 99, 46, 114, 57, 57] = some [97, 114, 99, 46, 115, 48, 48] ∧
    nextOldVolName [97, 46, 114, 97, 114] = some [97, 46, 114, 48, 48] := by
  constructor
  · rw [(nextOldVolName_correct [97, 114, 99, 46, 114, 57, 57]).1 114 57 57 []
      (by decide) (by decide) (by decide) (by decide) (by decide)]
    decide
  · rw [(nextOldVolName_correct [97, 46, 114, 97, 114]).2 114 [97, 114]
      (by decide) (by decide)]
    decide

/-! ## Theorems: File.Open on solid files (C9) -/

/-- Claim C9: for every `File` whose `Solid` flag is set, `File.Open` fails
with the "solid files don't support Open" error (and, the result being the
error branch, returns no reader), regardless of what the filesystem
operations would return. -/
theorem fileOpen_solid {H R : Type} (f : GoFile) (osOpen : Except GoErr H)
    (seekTo : H → Except GoErr Int) (next : H → Except GoErr R)
    (h : f.Solid = true) :
    fileOpen f osOpen seekTo next = .error .solidOpen := by
  simp [fileOpen, h]

theorem fileOpen_solid_witness :
    fileOpen (H := Unit) (R := Unit) ⟨true, 0⟩ (.ok ()) (fun _ => .ok 0)
      (fun _ => .ok ()) = .error .solidOpen :=
  fileOpen_solid ⟨true, 0⟩ (.ok ()) (fun _ => .ok 0) (fun _ => .ok ()) rfl

/-! ## Theorems: cipher seek (C3) -/

/-- Unfolding of `cbcPlain` on a nonempty stream. -/
theorem cbcPlain_cons (D : List Nat → List Nat) (iv data : List Nat)
    (h : data ≠ []) :
    cbcPlain D iv data =
      (D (data.take 16)).zipWith (· ^^^ ·) iv ++
        cbcPlain D (data.take 16) (data.drop 16) := by
  cases data with
  | nil => exact absurd rfl h
  | cons c rest =>
    rw [cbcPlain]
    rfl

/-- `cbcPlain` preserves the stream length when the block cipher does. -/
theorem cbcPlain_length (D : List Nat → List Nat)
    (hD : ∀ b, b.length = 16 → (D b).length = 16) :
    ∀ N (data iv : List Nat), data.length = N → iv.length = 16 →
      data.length % 16 = 0 → (cbcPlain D iv data).length = data.length := by
  intro N
  induction N using Nat.strong_induction_on with
  | _ N ih =>
    intro data iv hN hiv hmod
    cases data with
    | nil => rw [cbcPlain]
    | cons c rest =>
      rw [cbcPlain_cons D iv _ (by simp)]
      have hlen16 : 16 ≤ (c :: rest).length := by
        simp only [List.length_cons] at hmod ⊢
        omega
      have htake : ((c :: rest).take 16).length = 16 := by
        simp only [List.length_take]
        omega
      have hdroplen : ((c :: rest).drop 16).length = (c :: rest).length - 16 := by
        simp
      have ihlen := ih ((c :: rest).length - 16)
        (by simp only [List.length_cons] at hN ⊢; omega)
        ((c :: rest).drop 16) ((c :: rest).take 16) hdroplen htake
        (by simp only [hdroplen]; omega)
      rw [List.length_append, List.length_zipWith, hD _ htake, hiv, ihlen,
        hdroplen]
      simp only [List.length_cons] at hlen16 ⊢
      omega

/-- A ciphertext block inside the stream has 16 bytes. -/
theorem blockC_length (data : List Nat) (b : Nat)
    (h : 16 * (b + 1) ≤ data.length) : (blockC data b).length = 16 := by
  simp only [blockC, List.length_take, List.length_drop]
  omega

/-- A chaining value inside the stream has 16 bytes. -/
theorem chainIV_length (iv0 data : List Nat) (b : Nat) (hiv0 : iv0.length = 16)
    (h : 16 * b ≤ data.length) : (chainIV iv0 data b).length = 16 := by
  simp only [chainIV]
  cases b with
  | zero => rw [if_pos rfl]; exact hiv0
  | succ b =>
    rw [if_neg (by omega)]
    exact blockC_length data b (by omega)

/-- Decryption restarted at block `b` with the right chaining value
produces the tail of the plaintext. -/
theorem cbcPlain_drop (D : List Nat → List Nat) (iv0 data : List Nat)
    (hD : ∀ b, b.length = 16 → (D b).length = 16) (hiv0 : iv0.length = 16)
    (hmod : data.length % 16 = 0) :
    ∀ b, 16 * b ≤ data.length →
      (cbcPlain D iv0 data).drop (16 * b) =
        cbcPlain D (chainIV iv0 data b) (data.drop (16 * b)) := by
  intro b
  induction b with
  | zero => simp [chainIV]
  | succ b ih =>
    intro hble
    have hble' : 16 * b ≤ data.length := by omega
    have hrest : (data.drop (16 * b)) ≠ [] := by
      have : (data.drop (16 * b)).length = data.length - 16 * b := by simp
      intro hnil
      rw [hnil] at this
      simp at this
      omega
    have h16b : (16 * (b + 1)) = 16 * b + 16 := by ring
    rw [h16b, ← List.drop_drop, ih hble', cbcPlain_cons D _ _ hrest]
    have hzlen : ((D ((data.drop (16 * b)).take 16)).zipWith (· ^^^ ·)
        (chainIV iv0 data b)).length = 16 := by
      rw [List.length_zipWith,
        hD _ (by simp only [List.length_take, List.length_drop]; omega),
        chainIV_length iv0 data b hiv0 hble']
      simp
    rw [List.drop_left' hzlen]
    have hiv' : chainIV iv0 data (b + 1) = (data.drop (16 * b)).take 16 := by
      simp only [chainIV, if_neg (Nat.succ_ne_zero b), Nat.add_sub_cancel, blockC]
    rw [hiv', List.drop_drop]

/-- One plaintext block equals the decrypted ciphertext block XORed with
the chaining value. -/
theorem plain_block (D : List Nat → List Nat) (iv0 data : List Nat)
    (hD : ∀ b, b.length = 16 → (D b).length = 16) (hiv0 : iv0.length = 16)
    (hmod : data.length % 16 = 0) (b : Nat) (hble : 16 * (b + 1) ≤ data.length) :
    ((cbcPlain D iv0 data).drop (16 * b)).take 16 =
      (D (blockC data b)).zipWith (· ^^^ ·) (chainIV iv0 data b) := by
  rw [cbcPlain_drop D iv0 data hD hiv0 hmod b (by omega)]
  have hrest : (data.drop (16 * b)) ≠ [] := by
    have hl : (data.drop (16 * b)).length = data.length - 16 * b := by simp
    intro hnil
    rw [hnil] at hl
    simp at hl
    omega
  rw [cbcPlain_cons D _ _ hrest]
  have hzlen : ((D ((data.drop (16 * b)).take 16)).zipWith (· ^^^ ·)
      (chainIV iv0 data b)).length = 16 := by
    rw [List.length_zipWith,
      hD _ (by simp only [List.length_take, List.length_drop]; omega),
      chainIV_length iv0 data b hiv0 (by omega)]
    simp
  rw [List.take_left' hzlen]
  simp only [blockC]

/-- `fillOutbuf` on a block-aligned state decrypts exactly the next
plaintext block. -/
theorem fillOutbuf_good (D : List Nat → List Nat) (data iv0 : List Nat)
    (b : Nat) (s : CipherState)
    (hD : ∀ bl, bl.length = 16 → (D bl).length = 16) (hiv0 : iv0.length = 16)
    (hmod : data.length % 16 = 0)
    (hdata : s.data = data) (hinit : s.initIV = iv0) (hinbuf : s.inbuf = [])
    (hpos : s.pos = 16 * b) (hiv : s.iv = chainIV iv0 data b)
    (hble : 16 * (b + 1) ≤ data.length) :
    ∃ s', fillOutbuf D s = some s' ∧ s'.data = data ∧ s'.initIV = iv0 ∧
      s'.inbuf = [] ∧ s'.pos = 16 * (b + 1) ∧
      s'.iv = chainIV iv0 data (b + 1) ∧
      s'.outbuf = ((cbcPlain D iv0 data).drop (16 * b)).take 16 ∧
      s'.off = s.off := by
  rw [fillOutbuf, hinbuf, readUnder]
  simp only [List.length_nil, Nat.sub_zero]
  rw [if_pos (by rw [hpos, hdata]; omega)]
  refine ⟨_, rfl, hdata, hinit, hinbuf, ?_, ?_, ?_, rfl⟩
  · simp only [hpos]
    omega
  · show [] ++ (s.data.drop s.pos).take 16 = chainIV iv0 data (b + 1)
    rw [List.nil_append, hdata, hpos]
    simp only [chainIV, if_neg (Nat.succ_ne_zero b), Nat.add_sub_cancel, blockC]
  · show (D ([] ++ (s.data.drop s.pos).take 16)).zipWith (· ^^^ ·) s.iv =
      ((cbcPlain D iv0 data).drop (16 * b)).take 16
    rw [List.nil_append, hdata, hpos, hiv,
      plain_block D iv0 data hD hiv0 hmod b hble, blockC]

/-- `ReadByte` on a state satisfying the invariant delivers the next
plaintext byte and preserves the invariant. -/
theorem readByteC_good (D : List Nat → List Nat) (data iv0 : List Nat)
    (q : Nat) (s : CipherState)
    (hD : ∀ bl, bl.length = 16 → (D bl).length = 16) (hiv0 : iv0.length = 16)
    (hmod : data.length % 16 = 0)
    (hgood : GoodC D data iv0 q s) (hq : q < data.length) :
    ∃ s', readByteC D s = some ((cbcPlain D iv0 data).getD q 0, s') ∧
      GoodC D data iv0 (q + 1) s' := by
  obtain ⟨hdata, hinit, hinbuf, b, hpos, hqb, hble, hiv, houtbuf⟩ := hgood
  have hplen : (cbcPlain D iv0 data).length = data.length :=
    cbcPlain_length D hD data.length data iv0 rfl hiv0 hmod
  have houtlen : s.outbuf.length = 16 * b - q := by
    rw [houtbuf, List.length_drop, List.length_take, hplen,
      min_eq_left hble]
  rcases hout : s.outbuf with _ | ⟨x, rest⟩
  · -- outbuf empty: q = 16 * b, fill a fresh block first
    have hqeq : q = 16 * b := by
      rw [hout] at houtlen
      simp at houtlen
      omega
    have hble1 : 16 * (b + 1) ≤ data.length := by omega
    obtain ⟨s1, hfill, h1, h2, h3, h4, h5, h6, hoff1⟩ :=
      fillOutbuf_good D data iv0 b s hD hiv0 hmod hdata hinit hinbuf hpos hiv hble1
    have h6' : s1.outbuf = ((cbcPlain D iv0 data).take (16 * b + 16)).drop (16 * b) := by
      rw [h6, List.take_drop]
    have hlen1 : s1.outbuf.length = 16 := by
      rw [h6, List.length_take, List.length_drop, hplen, min_eq_left (by omega)]
    rcases hout1 : s1.outbuf with _ | ⟨x, rest⟩
    · rw [hout1] at hlen1
      simp at hlen1
    · have h0 : (cbcPlain D iv0 data)[q]? = some x := by
        have h00 : s1.outbuf[0]? = some x := by rw [hout1]; simp
        rw [h6', List.getElem?_drop, Nat.add_zero,
          List.getElem?_take_of_lt (by omega)] at h00
        rw [hqeq]
        exact h00
      have hx : x = (cbcPlain D iv0 data).getD q 0 := by
        rw [List.getD_eq_getElem?_getD, h0]
        rfl
      have hrest : rest = ((cbcPlain D iv0 data).take (16 * (b + 1))).drop (q + 1) := by
        have ht : s1.outbuf.tail = rest := by rw [hout1]; rfl
        rw [h6', List.tail_drop] at ht
        rw [← ht, hqeq]
        congr 1
      refine ⟨{ s1 with outbuf := rest, off := s1.off + 1 }, ?_, ?_⟩
      · simp only [readByteC, hout, hfill, hout1]
        rw [hx]
      · exact ⟨h1, h2, h3, b + 1, h4, by omega, hble1, h5, hrest⟩
  · -- outbuf non-empty: deliver the next cached plaintext byte
    have hqlt : q < 16 * b := by
      rw [hout] at houtlen
      simp only [List.length_cons] at houtlen
      omega
    have h0 : (cbcPlain D iv0 data)[q]? = some x := by
      have h00 : s.outbuf[0]? = some x := by rw [hout]; simp
      rw [houtbuf, List.getElem?_drop, Nat.add_zero,
        List.getElem?_take_of_lt hqlt] at h00
      exact h00
    have hx : x = (cbcPlain D iv0 data).getD q 0 := by
      rw [List.getD_eq_getElem?_getD, h0]
      rfl
    have hrest : rest = ((cbcPlain D iv0 data).take (16 * b)).drop (q + 1) := by
      have ht : s.outbuf.tail = rest := by rw [hout]; rfl
      rw [houtbuf, List.tail_drop] at ht
      exact ht.symm
    refine ⟨{ s with outbuf := rest, off := s.off + 1 }, ?_, ?_⟩
    · simp only [readByteC, hout]
      rw [hx]
    · exact ⟨hdata, hinit, hinbuf, b, hpos, by omega, hble, hiv, hrest⟩

/-- Splitting one element off a drop-take slice. -/
theorem drop_take_succ (l : List Nat) (q n : Nat) (h : q < l.length) :
    (l.drop q).take (n + 1) = l.getD q 0 :: (l.drop (q + 1)).take n := by
  rw [List.drop_eq_getElem_cons h, List.take_succ_cons,
    List.getD_eq_getElem l 0 h]

/-- Reading `n` bytes from a state satisfying the invariant delivers the
`n` plaintext bytes starting at offset `q`. -/
theorem readN_good (D : List Nat → List Nat) (data iv0 : List Nat)
    (hD : ∀ bl, bl.length = 16 → (D bl).length = 16) (hiv0 : iv0.length = 16)
    (hmod : data.length % 16 = 0) :
    ∀ (n q : Nat) (s : CipherState), GoodC D data iv0 q s →
      q + n ≤ data.length →
    ∃ s', readN D n s = some (((cbcPlain D iv0 data).drop q).take n, s') ∧
      GoodC D data iv0 (q + n) s' := by
  intro n
  induction n with
  | zero =>
    intro q s hgood hq
    exact ⟨s, by rw [readN]; simp, hgood⟩
  | succ n ih =>
    intro q s hgood hq
    have hplen : (cbcPlain D iv0 data).length = data.length :=
      cbcPlain_length D hD data.length data iv0 rfl hiv0 hmod
    obtain ⟨s1, hread, hgood1⟩ :=
      readByteC_good D data iv0 q s hD hiv0 hmod hgood (by omega)
    obtain ⟨s2, hreadN, hgood2⟩ := ih (q + 1) s1 hgood1 (by omega)
    refine ⟨s2, ?_, by rw [(by omega : q + (n + 1) = q + 1 + n)]; exact hgood2⟩
    have hdt := drop_take_succ (cbcPlain D iv0 data) q n (by omega)
    simp only [readN, hread, hreadN, hdt]

/-- `Seek(p, io.SeekStart)` on a fresh reader over ciphertext `data`
returns `p` and establishes the invariant at plaintext offset `p`. -/
theorem seekC_good (D : List Nat → List Nat) (data iv0 : List Nat)
    (s : CipherState)
    (hD : ∀ bl, bl.length = 16 → (D bl).length = 16) (hiv0 : iv0.length = 16)
    (hmod : data.length % 16 = 0)
    (hdata : s.data = data) (hinit : s.initIV = iv0)
    (p : Nat) (hp : p < data.length) :
    ∃ s1, seekC D (p : Int) .start s = some ((p : Int), s1) ∧
      GoodC D data iv0 p s1 := by
  have hplen : (cbcPlain D iv0 data).length = data.length :=
    cbcPlain_length D hD data.length data iv0 rfl hiv0 hmod
  have h16 : 16 * (p / 16) ≤ p := by omega
  rw [seekC]
  dsimp only
  rw [if_neg (by omega : ¬ ((p : Int) < 0))]
  by_cases hbz : p / 16 = 0
  · rw [if_pos (by omega : (p : Int) / 16 = 0)]
    dsimp only
    by_cases hr : p % 16 = 0
    · have hp0 : p = 0 := by omega
      rw [if_neg (by omega : ¬ (0 < ((p : Int) % 16).toNat))]
      rw [show ((p : Int) / 16 * 16) = (p : Int) from by omega]
      refine ⟨_, rfl, ?_⟩
      dsimp only [GoodC, resetC]
      refine ⟨hdata, hinit, rfl, 0, rfl, by omega, by omega, ?_, ?_⟩
      · rw [hinit, chainIV, if_pos rfl]
      · simp
    · rw [if_pos (by omega : 0 < ((p : Int) % 16).toNat)]
      obtain ⟨s3, hfill, h1, h2, h3, h4, h5, h6, hoff⟩ :=
        fillOutbuf_good D data iv0 0
          { resetC s.initIV { s with pos := 0 } with off := (p : Int) / 16 * 16 }
          hD hiv0 hmod hdata hinit rfl (by dsimp only [resetC])
          (by dsimp only [resetC]; rw [hinit, chainIV, if_pos rfl])
          (by omega)
      rw [hfill]
      dsimp only
      have hlen3 : s3.outbuf.length = 16 := by
        rw [h6, List.length_take, List.length_drop, hplen]
        omega
      rw [if_pos (by rw [hlen3]; omega : ((p : Int) % 16).toNat < s3.outbuf.length)]
      rw [hoff]
      dsimp only
      rw [show ((p : Int) / 16 * 16 + ((((p : Int) % 16).toNat : Nat) : Int)) = (p : Int)
        from by omega]
      refine ⟨_, rfl, ?_⟩
      dsimp only [GoodC]
      refine ⟨h1, h2, h3, 1, by rw [h4], by omega, by omega, by rw [h5], ?_⟩
      show s3.outbuf.drop ((p : Int) % 16).toNat =
        ((cbcPlain D iv0 data).take (16 * 1)).drop p
      rw [h6, List.take_drop, List.drop_drop]
      rw [show (16 : Nat) * 0 = 0 from rfl, Nat.zero_add, Nat.add_zero]
      congr 1
      omega
  · rw [if_neg (by omega : ¬ ((p : Int) / 16 = 0))]
    have hble : 16 * (p / 16) ≤ data.length := by omega
    rw [show (((p : Int) / 16 - 1) * 16).toNat = (p / 16 - 1) * 16 from by omega]
    rw [readUnder]
    dsimp only
    rw [if_pos (by rw [hdata]; omega : (p / 16 - 1) * 16 + 16 ≤ s.data.length)]
    dsimp only
    obtain ⟨s3, hfill2, g1, g2, g3, g4, g5, g6, goff⟩ :=
      fillOutbuf_good D data iv0 (p / 16)
        { resetC ((s.data.drop ((p / 16 - 1) * 16)).take 16)
            { s with pos := (p / 16 - 1) * 16 + 16 } with off := (p : Int) / 16 * 16 }
        hD hiv0 hmod hdata hinit rfl (by dsimp only [resetC]; omega)
        (by dsimp only [resetC]
            rw [hdata, chainIV, if_neg hbz, blockC]
            congr 2
            omega)
        (by omega)
    by_cases hr : p % 16 = 0
    · rw [if_neg (by omega : ¬ (0 < ((p : Int) % 16).toNat))]
      rw [show ((p : Int) / 16 * 16) = (p : Int) from by omega]
      refine ⟨_, rfl, ?_⟩
      dsimp only [GoodC, resetC]
      refine ⟨hdata, hinit, rfl, p / 16, ?_, by omega, by omega, ?_, ?_⟩
      · omega
      · rw [hdata, chainIV, if_neg hbz, blockC]
        congr 2
        omega
      · refine (List.drop_eq_nil_of_le ?_).symm
        rw [List.length_take]
        omega
    · rw [if_pos (by omega : 0 < ((p : Int) % 16).toNat)]
      rw [hfill2]
      dsimp only
      have hlen3 : s3.outbuf.length = 16 := by
        rw [g6, List.length_take, List.length_drop, hplen]
        omega
      rw [if_pos (by rw [hlen3]; omega : ((p : Int) % 16).toNat < s3.outbuf.length)]
      rw [goff]
      dsimp only
      rw [show ((p : Int) / 16 * 16 + ((((p : Int) % 16).toNat : Nat) : Int)) = (p : Int)
        from by omega]
      refine ⟨_, rfl, ?_⟩
      dsimp only [GoodC]
      refine ⟨g1, g2, g3, p / 16 + 1, by rw [g4], by omega, by omega,
        by rw [g5], ?_⟩
      show s3.outbuf.drop ((p : Int) % 16).toNat =
        ((cbcPlain D iv0 data).take (16 * (p / 16 + 1))).drop p
      rw [g6, List.take_drop, List.drop_drop]
      congr 1
      omega

/-- C3: for every plaintext offset `p ∈ [0, file length)`, `Seek(p,
io.SeekStart)` on the seekable cipher reader followed by reading `n`
bytes yields exactly the plaintext bytes `[p, p+n)`, and hence exactly
the same `n` bytes as seeking to offset 0, reading `p + n` bytes and
dropping the first `p`.  `D` is the raw AES block decryption (assumed
only to preserve the 16-byte block length), the ciphertext is a whole
number of blocks, and `p + n` does not run past the end. -/
theorem cipher_seek_read (D : List Nat → List Nat) (data iv0 : List Nat)
    (s : CipherState)
    (hD : ∀ bl, bl.length = 16 → (D bl).length = 16) (hiv0 : iv0.length = 16)
    (hmod : data.length % 16 = 0)
    (hdata : s.data = data) (hinit : s.initIV = iv0)
    (p n : Nat) (hp : p < data.length) (hpn : p + n ≤ data.length) :
    seekRead D p n s = some (((cbcPlain D iv0 data).drop p).take n) ∧
    seekRead D p n s = (seekRead D 0 (p + n) s).map (fun l => l.drop p) := by
  obtain ⟨s1, hseek1, hgood1⟩ :=
    seekC_good D data iv0 s hD hiv0 hmod hdata hinit p hp
  obtain ⟨s1f, hread1, hgood1f⟩ :=
    readN_good D data iv0 hD hiv0 hmod n p s1 hgood1 hpn
  obtain ⟨s0, hseek0, hgood0⟩ :=
    seekC_good D data iv0 s hD hiv0 hmod hdata hinit 0 (by omega)
  obtain ⟨s0f, hread0, hgood0f⟩ :=
    readN_good D data iv0 hD hiv0 hmod (p + n) 0 s0 hgood0 (by omega)
  have lhs : seekRead D p n s = some (((cbcPlain D iv0 data).drop p).take n) := by
    rw [seekRead, hseek1]
    dsimp only [Option.bind]
    rw [hread1]
    rfl
  refine ⟨lhs, ?_⟩
  rw [lhs, seekRead, hseek0]
  dsimp only [Option.bind]
  rw [hread0]
  dsimp only [Option.map]
  rw [List.drop_zero, List.take_drop]

/-- Witness for C3 at `p = 5`, `n = 7` on a 32-byte ciphertext with the
identity block cipher. -/
theorem cipher_seek_read_witness :
    seekRead (fun b => b) 5 7 c3State =
      some (((cbcPlain (fun b => b) c3IV c3Data).drop 5).take 7) ∧
    seekRead (fun b => b) 5 7 c3State =
      (seekRead (fun b => b) 0 (5 + 7) c3State).map (fun l => l.drop 5) :=
  cipher_seek_read (fun b => b) c3Data c3IV c3State (fun _ h => h) (by decide)
    (by decide) rfl rfl 5 7 (by decide) (by decide)

end Rardecode
